import Mathlib

/-!
Verification development for the `chunker.py` file chunker.

The program splits a file into fixed-size chunks plus a line-oriented
`key=value` metadata file (`split_file`), and reconstructs the original
file from a chunk directory, verifying size and SHA-256 hash
(`join_files`).  The embedding below models Python strings as `List Char`
(`PyStr`), file contents as `List Nat` (`Bytes`, one number per byte), a
directory as an association list from file name to file content, and the
hash primitive `get_file_hash` as an arbitrary function of the byte
content (it streams the whole file, so it is a function of content only).
-/

namespace Chunker

/-- Content bytes of a file: one `Nat` per byte. -/
abbrev Bytes := List Nat

/-- A Python string, modelled as its list of characters. -/
abbrev PyStr := List Char

/-- Convert a Lean string literal into the `PyStr` model. -/
def str (s : String) : PyStr := s.toList

/-- The decimal digit character for `d < 10` (and `'0'` out of range,
which is never hit by the program model). -/
def digitChar (d : Nat) : Char :=
  (['0', '1', '2', '3', '4', '5', '6', '7', '8', '9']).getD d '0'

/-- Fueled loop computing the decimal digits of `n`, most significant
first, exactly as Python's `str(int)` renders a non-negative integer.
The fuel only bounds the iteration count; `natDigits` supplies enough. -/
def natDigitsLoop : Nat → Nat → PyStr
  | 0, _ => []
  | fuel + 1, n =>
    if n < 10 then [digitChar n]
    else natDigitsLoop fuel (n / 10) ++ [digitChar (n % 10)]

/-- Decimal rendering of a natural number, as Python's `str`. -/
def natDigits (n : Nat) : PyStr := natDigitsLoop (n + 1) n

/-- Numeric value of a digit string (used to reason about decimal
renderings; leading zeros are ignored). -/
def digitsVal (l : PyStr) : Nat :=
  l.foldl (fun a c => 10 * a + (c.toNat - 48)) 0

/-- Python's `f"{i:03d}"`: the decimal digits of `i`, left padded with
`'0'` to at least three characters. -/
def pad3 (i : Nat) : PyStr :=
  List.replicate (3 - (natDigits i).length) '0' ++ natDigits i

/-- Chunk file name `f"{base}.part{i:03d}"` used by both `split_file`
and `join_files`. -/
def partName (base : PyStr) (i : Nat) : PyStr :=
  base ++ str ".part" ++ pad3 i

/-- POSIX `os.path.join` for the plain relative names the program
builds: `a ++ "/" ++ b`. -/
def pathJoin (a b : PyStr) : PyStr := a ++ '/' :: b

/-- The whitespace recognized by Python's `str.strip()` (and stripped
by `int()`), i.e. the characters for which `str.isspace()` holds under
Unicode 15.0: tab through carriage return (U+0009-U+000D), the
separators U+001C-U+001F, space, next line U+0085, no-break space
U+00A0, Ogham space U+1680, the typographic spaces U+2000-U+200A, line
and paragraph separators U+2028/U+2029, narrow no-break space U+202F,
medium mathematical space U+205F and ideographic space U+3000. -/
def isPyWs (c : Char) : Bool :=
  (9 ≤ c.toNat && c.toNat ≤ 13) || c.toNat = 32 ||
  (28 ≤ c.toNat && c.toNat ≤ 31) || c.toNat = 0x85 || c.toNat = 0xa0 ||
  c.toNat = 0x1680 || (0x2000 ≤ c.toNat && c.toNat ≤ 0x200a) ||
  c.toNat = 0x2028 || c.toNat = 0x2029 || c.toNat = 0x202f ||
  c.toNat = 0x205f || c.toNat = 0x3000

/-- Remove trailing whitespace (the right half of `str.strip()`). -/
def rstrip (l : PyStr) : PyStr := (l.reverse.dropWhile isPyWs).reverse

/-- Python's `str.strip()`: drop leading and trailing whitespace. -/
def pyStrip (l : PyStr) : PyStr := rstrip (l.dropWhile isPyWs)

/-- Python's `s.split(sep, 1)` when it succeeds in finding `sep`:
returns the parts before and after the first occurrence, `none` when
`sep` does not occur (in which case the two-target unpacking in
`join_files` raises). -/
def splitFirst (sep : Char) : PyStr → Option (PyStr × PyStr)
  | [] => none
  | c :: cs =>
    if c = sep then some ([], cs)
    else
      match splitFirst sep cs with
      | none => none
      | some (a, b) => some (c :: a, b)

/-- Split a character list at every `'\n'`, keeping empty segments
(the segment after a trailing newline included). -/
def splitNL : PyStr → List PyStr
  | [] => [[]]
  | c :: rest =>
    if c = '\n' then [] :: splitNL rest
    else
      match splitNL rest with
      | [] => [[c]]
      | l :: ls => (c :: l) :: ls

/-- Universal-newline translation performed by Python when reading a
text file: `"\r\n"` and lone `"\r"` both become `"\n"`. -/
def univNL : PyStr → PyStr
  | [] => []
  | '\r' :: '\n' :: rest => '\n' :: univNL rest
  | '\r' :: rest => '\n' :: univNL rest
  | c :: rest => c :: univNL rest

/-- The sequence of lines produced by iterating over a Python text
file, with the trailing `'\n'` of each line removed (the caller strips
it anyway): split on newlines and drop the empty segment a trailing
newline leaves behind. -/
def pyLines (t : PyStr) : List PyStr :=
  if (splitNL (univNL t)).getLast? = some [] then (splitNL (univNL t)).dropLast
  else splitNL (univNL t)

/-- The metadata-reading loop of `join_files` (lines 94-96): for each
line, `key, value = line.strip().split('=', 1)` and
`metadata[key] = value`.  The accumulator holds the dictionary with the
most recent binding first; a line without `'='` raises (returns
`none`). -/
def parseLines : List PyStr → List (PyStr × PyStr) → Option (List (PyStr × PyStr))
  | [], d => some d
  | l :: ls, d =>
    match splitFirst '=' (pyStrip l) with
    | none => none
    | some (k, v) => parseLines ls ((k, v) :: d)

/-- Dictionary lookup: the first (most recent) binding of the key, as a
Python `dict` built by repeated assignment. -/
def dictLookup : List (PyStr × PyStr) → PyStr → Option PyStr
  | [], _ => none
  | (k, v) :: rest, key => if k = key then some v else dictLookup rest key

/-- First code points of the decimal-digit runs of Unicode 15.0 (the
version CPython 3.12 ships): every character of general category `Nd`
lies in exactly one run of ten consecutive code points `s .. s+9`
listed here, with decimal value `code - s`.  Python's `int()` accepts
any of these as a digit. -/
def ndRangeStarts : List Nat :=
  [0x30, 0x660, 0x6F0, 0x7C0, 0x966, 0x9E6, 0xA66, 0xAE6, 0xB66, 0xBE6,
   0xC66, 0xCE6, 0xD66, 0xDE6, 0xE50, 0xED0, 0xF20, 0x1040, 0x1090, 0x17E0,
   0x1810, 0x1946, 0x19D0, 0x1A80, 0x1A90, 0x1B50, 0x1BB0, 0x1C40, 0x1C50,
   0xA620, 0xA8D0, 0xA900, 0xA9D0, 0xA9F0, 0xAA50, 0xABF0, 0xFF10,
   0x104A0, 0x10D30, 0x11066, 0x110F0, 0x11136, 0x111D0, 0x112F0, 0x11450,
   0x114D0, 0x11650, 0x116C0, 0x11730, 0x118E0, 0x11950, 0x11C50, 0x11D50,
   0x11DA0, 0x11F50, 0x16A60, 0x16AC0, 0x16B50,
   0x1D7CE, 0x1D7D8, 0x1D7E2, 0x1D7EC, 0x1D7F6,
   0x1E140, 0x1E2F0, 0x1E4F0, 0x1E950, 0x1FBF0]

/-- The decimal value of a character under Python's `int()`: any
Unicode decimal digit counts, not just ASCII. -/
def pyDigit? (c : Char) : Option Nat :=
  match ndRangeStarts.find? (fun s => s ≤ c.toNat && c.toNat ≤ s + 9) with
  | some s => some (c.toNat - s)
  | none => none

/-- The digit part of Python's `int()` grammar after the optional
sign: a nonempty digit run in which single underscores may appear only
between two digits (`int("1_0") == 10`, while `"_1"`, `"1_"` and
`"1__0"` all raise).  The `prev` flag records whether the previous
character was a digit, so that an underscore is legal exactly when
`prev` holds and must itself be followed by a digit; `acc` is the value
accumulated so far. -/
def digitsRun : Bool → Nat → PyStr → Option Nat
  | prev, acc, [] => if prev then some acc else none
  | prev, acc, c :: cs =>
    match pyDigit? c with
    | some d => digitsRun true (10 * acc + d) cs
    | none => if prev ∧ c = '_' then digitsRun false acc cs else none

/-- Value of a full digits-with-underscores run (the run must start
with a digit and be nonempty). -/
def pyDigitsVal? (l : PyStr) : Option Nat := digitsRun false 0 l

/-- Python's `int(s)` for base 10: strip whitespace (same set as
`str.strip()`), allow one optional ASCII sign, then require a digit run
with underscore grouping; `none` models the `ValueError` raised
otherwise. -/
def pyIntCore : PyStr → Option Int
  | [] => none
  | c :: ds =>
    if c = '-' then
      match pyDigitsVal? ds with
      | some v => some (-(v : Int))
      | none => none
    else if c = '+' then
      match pyDigitsVal? ds with
      | some v => some ((v : Int))
      | none => none
    else
      match pyDigitsVal? (c :: ds) with
      | some v => some ((v : Int))
      | none => none

/-- See the doc comment above: `int(s)` strips, then parses an optional
sign followed by a digit run. -/
def pyInt? (s : PyStr) : Option Int := pyIntCore (pyStrip s)

/-- The metadata record written by `split_file` (lines 63-68). -/
structure Meta where
  original_name : PyStr
  num_chunks : Nat
  original_size : Nat
  chunk_size : Nat
  sha256 : PyStr
deriving DecidableEq

/-- One `key=value` metadata line (without its terminating newline). -/
def metaLine (k : String) (v : PyStr) : PyStr := str k ++ '=' :: v

/-- The five newline-terminated metadata lines, in the order
`split_file` writes them, with the `num_chunks`, `original_size` and
`chunk_size` values abstracted (used both for the canonical encoder and
for reasoning about variant metadata texts). -/
def metaText5 (name nc os cs h : PyStr) : PyStr :=
  metaLine "original_name" name ++ '\n' ::
  (metaLine "num_chunks" nc ++ '\n' ::
  (metaLine "original_size" os ++ '\n' ::
  (metaLine "chunk_size" cs ++ '\n' ::
  (metaLine "sha256" h ++ '\n' :: []))))

/-- The exact text `split_file` writes to `<base>.meta` (lines 63-68):
five `key=value\n` lines in order. -/
def encodeMeta (m : Meta) : PyStr :=
  metaText5 m.original_name (natDigits m.num_chunks) (natDigits m.original_size)
    (natDigits m.chunk_size) m.sha256

/-- Fueled version of the chunk-reading loop of `split_file`
(lines 49-59): `chunk = f.read(chunk_size)` returns the next at most
`s` bytes, and is empty exactly when the file is exhausted or `s = 0`,
which ends the loop.  The fuel only bounds the iteration count;
`chunksOf` supplies enough (each productive step consumes at least one
byte). -/
def chunkLoop (s : Nat) : Nat → Bytes → List Bytes
  | 0, _ => []
  | fuel + 1, data =>
    if data.take s = [] then []
    else data.take s :: chunkLoop s fuel (data.drop s)

/-- The list of chunk contents `split_file` writes, in index order. -/
def chunksOf (s : Nat) (data : Bytes) : List Bytes :=
  chunkLoop s data.length data

/-- Everything `split_file` produces: the chunk contents in index order
(chunk `i` is written to `<base>.part<i:03d>`) and the metadata
record. -/
structure SplitResult where
  chunks : List Bytes
  meta : Meta
deriving DecidableEq

/-- Model of `split_file` (lines 24-72) after the MB-to-bytes
conversion: `digest` stands for `get_file_hash`, `base` for
`os.path.basename(filepath)`, `data` for the source content and `s`
for the chunk size in bytes. -/
def splitFile (digest : Bytes → PyStr) (base : PyStr) (data : Bytes) (s : Nat) :
    SplitResult :=
  let cs := chunksOf s data
  { chunks := cs
    meta :=
      { original_name := base
        num_chunks := cs.length
        original_size := data.length
        chunk_size := s
        sha256 := digest data } }

/-- Model of `split_file` at its actual signature: the chunk size
argument is in megabytes and is converted by `chunk_size_mb * 1024 * 1024`
(line 26). -/
def splitFileMB (digest : Bytes → PyStr) (base : PyStr) (data : Bytes) (mb : Nat) :
    SplitResult :=
  splitFile digest base data (mb * 1024 * 1024)

/-- Content of a file on disk: a chunk written in binary mode, or a
text file such as the metadata record. -/
inductive FData where
  | bin (bs : Bytes)
  | txt (s : PyStr)
deriving DecidableEq

/-- A directory: file names with their contents, in listing order. -/
abbrev Dir := List (PyStr × FData)

/-- Look a file up by name (names in a real directory are unique; the
first entry wins, consistently with every use below). -/
def lookupFile : Dir → PyStr → Option FData
  | [], _ => none
  | (m, c) :: rest, n => if m = n then some c else lookupFile rest n

/-- Model of `os.path.exists` inside the directory. -/
def hasFile (d : Dir) (n : PyStr) : Bool := (lookupFile d n).isSome

/-- Read a file as text (`open(..., 'r')`); reading a binary file as
text is never exercised by the program on its own artifacts and is
modelled as unavailable. -/
def fdataText : FData → Option PyStr
  | .txt s => some s
  | .bin _ => none

/-- Read a named file as text. -/
def readTextFile (d : Dir) (n : PyStr) : Option PyStr :=
  (lookupFile d n).bind fdataText

/-- Read a named file as bytes (`open(..., 'rb')` then `.read()`).
`join_files` only reads chunk files whose existence it has already
checked, so the `none` default is unreachable there; a text file read
in binary mode yields its character codes (the program's own chunk
files are always binary entries). -/
def readBinD (d : Dir) (n : PyStr) : Bytes :=
  match lookupFile d n with
  | some (.bin bs) => bs
  | some (.txt s) => s.map Char.toNat
  | none => []

/-- Does a file name end in `".meta"`? (`f.endswith('.meta')`,
line 83). -/
def endsWithMeta (n : PyStr) : Bool :=
  n.reverse.take 5 == (str ".meta").reverse

/-- The metadata file `join_files` uses: the first name in listing
order that ends in `".meta"` (lines 83-89: the comprehension keeps
listing order and `meta_files[0]` takes the head). -/
def findMetaName : Dir → Option PyStr
  | [] => none
  | (n, _) :: rest => if endsWithMeta n then some n else findMetaName rest

/-- Write (create or truncate-and-replace) a file in a directory. -/
def writeFile : Dir → PyStr → FData → Dir
  | [], n, c => [(n, c)]
  | (m, c0) :: rest, n, c =>
    if m = n then (n, c) :: rest else (m, c0) :: writeFile rest n c

/-- The metadata fields `join_files` actually extracts (lines 98-101):
`original_name`, `int(num_chunks)`, `int(original_size)`, `sha256`.
The numeric fields are Python ints, hence possibly negative. -/
structure JMeta where
  original_name : PyStr
  num_chunks : Int
  original_size : Int
  sha256 : PyStr
deriving DecidableEq

/-- Metadata decoding as performed by `join_files` (lines 92-101):
parse every line into the dictionary, then read the four keys used,
converting `num_chunks` and `original_size` with `int`.  `none` models
the uncaught `ValueError`/`KeyError` (the spec's `FormatError`). -/
def decodeForJoin (text : PyStr) : Option JMeta :=
  (parseLines (pyLines text) []).bind fun d =>
  (dictLookup d (str "original_name")).bind fun name =>
  (dictLookup d (str "num_chunks")).bind fun ncS =>
  (pyInt? ncS).bind fun nc =>
  (dictLookup d (str "original_size")).bind fun osS =>
  (pyInt? osS).bind fun osz =>
  (dictLookup d (str "sha256")).map fun h => ⟨name, nc, osz, h⟩

/-- The missing-chunk report of `join_files` (lines 107-111): for each
`i in range(num_chunks)` whose chunk file is absent, the joined path
`os.path.join(folder_name, f"{original_name}.part{i:03d}")`, in index
order.  `Int.toNat` reflects that `range` of a negative int is empty. -/
def missingList (folderName : PyStr) (d : Dir) (jm : JMeta) : List PyStr :=
  ((List.range jm.num_chunks.toNat).filter
      (fun i => !(hasFile d (partName jm.original_name i)))).map
    (fun i => pathJoin folderName (partName jm.original_name i))

/-- Output-name collision rule of `join_files` (lines 120-123). -/
def chooseOutName (cwd : Dir) (name : PyStr) : PyStr :=
  if hasFile cwd name then str "rebuilt_" ++ name else name

/-- The bytes `join_files` writes (lines 125-129): the chunk files'
contents concatenated in index order. -/
def expectedOutput (d : Dir) (jm : JMeta) : Bytes :=
  ((List.range jm.num_chunks.toNat).map
    (fun i => readBinD d (partName jm.original_name i))).flatten

/-- Verification result reported by `join_files` (lines 133-151). -/
inductive Verdict where
  | ok
  | hashMismatch
  | sizeMismatch
deriving DecidableEq

/-- Size check first; only on size equality is the hash of the output
recomputed and compared (lines 138-151). -/
def verdictOf (digest : Bytes → PyStr) (jm : JMeta) (output : Bytes) : Verdict :=
  if (output.length : Int) = jm.original_size then
    if digest output = jm.sha256 then .ok else .hashMismatch
  else .sizeMismatch

/-- How a `join_files` call ends. -/
inductive JoinOutcome where
  | noMeta
  | badMeta
  | missingChunks (names : List PyStr)
  | rebuilt (outputName : PyStr) (verdict : Verdict)
deriving DecidableEq

/-- Model of `join_files` (lines 75-151) on an existing chunk directory
`dir`; `cwd` is the current working directory into which the output is
written; the returned `Dir` is the working directory afterwards.
`noMeta` is the no-metadata-file error, `badMeta` the uncaught
metadata-decoding failure; both leave `cwd` untouched, as does the
missing-chunks error. -/
def joinFiles (digest : Bytes → PyStr) (folderName : PyStr) (dir cwd : Dir) :
    JoinOutcome × Dir :=
  match findMetaName dir with
  | none => (.noMeta, cwd)
  | some mn =>
    match readTextFile dir mn with
    | none => (.badMeta, cwd)
    | some text =>
      match decodeForJoin text with
      | none => (.badMeta, cwd)
      | some jm =>
        let missing := missingList folderName dir jm
        if missing.isEmpty then
          let outName := chooseOutName cwd jm.original_name
          let output := expectedOutput dir jm
          (.rebuilt outName (verdictOf digest jm output),
            writeFile cwd outName (.bin output))
        else (.missingChunks missing, cwd)

/-- The chunk-file entries `split_file` writes, starting at index
`start` (used with `start = 0`; the generalization supports
induction). -/
def chunkEntries (base : PyStr) (start : Nat) : List Bytes → Dir
  | [] => []
  | c :: cs => (partName base start, .bin c) :: chunkEntries base (start + 1) cs

/-- The chunk-set directory `split_file` populates: the chunk files in
index order followed by `<base>.meta` (the metadata file is written
last, lines 62-68). -/
def splitDir (r : SplitResult) : Dir :=
  chunkEntries r.meta.original_name 0 r.chunks ++
    [(r.meta.original_name ++ str ".meta", .txt (encodeMeta r.meta))]

/-- `c` is the ceiling of `n / s`, characterized without division so
that the statement is meaningful (and provably unsatisfiable) when
`s = 0` and `n > 0`. -/
def isCeilOf (n s c : Nat) : Prop := n ≤ c * s ∧ c * s < n + s

/-- No newline or carriage return occurs in the string (a field
containing either cannot survive the line-oriented metadata format). -/
def noNL (v : PyStr) : Prop := '\n' ∉ v ∧ '\r' ∉ v

/-- The string does not end in whitespace (so the `line.strip()` in the
metadata parser gives it back unchanged). -/
def lastOk (v : PyStr) : Bool :=
  match v.getLast? with
  | none => true
  | some c => !isPyWs c

/-- A string that survives the metadata round trip: newline-free and
not ending in whitespace. -/
def cleanField (v : PyStr) : Prop := noNL v ∧ lastOk v = true

instance noNL_decidable (v : PyStr) : Decidable (noNL v) :=
  inferInstanceAs (Decidable ('\n' ∉ v ∧ '\r' ∉ v))

instance cleanField_decidable (v : PyStr) : Decidable (cleanField v) :=
  inferInstanceAs (Decidable (noNL v ∧ lastOk v = true))

instance isCeilOf_decidable (n s c : Nat) : Decidable (isCeilOf n s c) :=
  inferInstanceAs (Decidable (n ≤ c * s ∧ c * s < n + s))

theorem chunkLoop_nil (s fuel : Nat) : chunkLoop s fuel [] = [] := by
  cases fuel <;> simp [chunkLoop]

theorem chunkLoop_congr (s : Nat) :
    ∀ f1 f2 (data : Bytes), data.length ≤ f1 → data.length ≤ f2 →
      chunkLoop s f1 data = chunkLoop s f2 data := by
  intro f1
  induction f1 with
  | zero =>
    intro f2 data h1 _
    have hd : data = [] := List.eq_nil_of_length_eq_zero (Nat.le_zero.mp h1)
    subst hd
    simp [chunkLoop_nil]
  | succ g ih =>
    intro f2 data h1 h2
    cases f2 with
    | zero =>
      have hd : data = [] := List.eq_nil_of_length_eq_zero (Nat.le_zero.mp h2)
      subst hd
      simp [chunkLoop_nil]
    | succ g2 =>
      by_cases ht : data.take s = []
      · simp [chunkLoop, ht]
      · have hs : s ≠ 0 := by
          intro h0
          exact ht (List.take_eq_nil_iff.mpr (Or.inl h0))
        have hdne : data ≠ [] := by
          intro h0
          exact ht (List.take_eq_nil_iff.mpr (Or.inr h0))
        have hlen : 0 < data.length := List.length_pos.mpr hdne
        have hdrop : (data.drop s).length ≤ g := by
          rw [List.length_drop]
          omega
        have hdrop2 : (data.drop s).length ≤ g2 := by
          rw [List.length_drop]
          omega
        simp only [chunkLoop, if_neg ht]
        rw [ih g2 (data.drop s) hdrop hdrop2]

/-- The loop equation of the chunk-writing loop of `split_file`. -/
theorem chunksOf_eq (s : Nat) (data : Bytes) :
    chunksOf s data =
      if data.take s = [] then [] else data.take s :: chunksOf s (data.drop s) := by
  by_cases ht : data.take s = []
  · rcases List.take_eq_nil_iff.mp ht with h0 | h0
    · cases data with
      | nil => simp [chunksOf, chunkLoop_nil, ht]
      | cons d ds => simp [chunksOf, chunkLoop, ht]
    · subst h0
      simp [chunksOf, chunkLoop_nil, ht]
  · have hdne : data ≠ [] := fun h0 => ht (List.take_eq_nil_iff.mpr (Or.inr h0))
    have hs : s ≠ 0 := fun h0 => ht (List.take_eq_nil_iff.mpr (Or.inl h0))
    cases hd : data with
    | nil => exact absurd hd hdne
    | cons d ds =>
      rw [← hd]
      have hlen : data.length = ds.length + 1 := by rw [hd]; rfl
      simp only [chunksOf, hlen, chunkLoop, if_neg ht]
      have hdrop : (data.drop s).length ≤ ds.length := by
        rw [List.length_drop]
        omega
      rw [chunkLoop_congr s ds.length (data.drop s).length (data.drop s) hdrop le_rfl]

theorem chunksOf_nil (s : Nat) : chunksOf s [] = [] := by
  rw [chunksOf_eq]
  simp

theorem chunksOf_zero (data : Bytes) : chunksOf 0 data = [] := by
  rw [chunksOf_eq]
  simp

theorem chunksOf_eq_nil_iff (s : Nat) (data : Bytes) (hs : 0 < s) :
    chunksOf s data = [] ↔ data = [] := by
  constructor
  · intro h
    rw [chunksOf_eq] at h
    by_cases ht : data.take s = []
    · rcases List.take_eq_nil_iff.mp ht with h0 | h0
      · omega
      · exact h0
    · rw [if_neg ht] at h
      exact absurd h (List.cons_ne_nil _ _)
  · intro h
    subst h
    exact chunksOf_nil s

/-- Number of chunks the split loop produces: the ceiling of
`data.length / s` (also right for the empty file, where it is `0`). -/
theorem length_chunksOf (s : Nat) (hs : 0 < s) (data : Bytes) :
    (chunksOf s data).length = (data.length + s - 1) / s := by
  generalize hn : data.length = n
  induction n using Nat.strong_induction_on generalizing data with
  | _ n ih =>
    rw [chunksOf_eq]
    by_cases ht : data.take s = []
    · rcases List.take_eq_nil_iff.mp ht with h0 | h0
      · omega
      · subst h0
        simp at hn
        subst hn
        rw [if_pos ht]
        have h4 : (0 + s - 1) / s = 0 := Nat.div_eq_of_lt (by omega)
        rw [h4]
        rfl
    · have hdne : data ≠ [] := fun h0 => ht (List.take_eq_nil_iff.mpr (Or.inr h0))
      have hpos : 0 < n := by
        subst hn
        exact List.length_pos.mpr hdne
      have hdl : (data.drop s).length = n - s := by
        rw [List.length_drop, hn]
      rw [if_neg ht]
      simp only [List.length_cons]
      rw [ih (n - s) (by omega) (data.drop s) hdl]
      rcases Nat.lt_or_ge n s with hlt | hge
      · have h2 : (n - s + s - 1) / s = 0 := by
          have h1 : n - s = 0 := by omega
          rw [h1]
          exact Nat.div_eq_of_lt (by omega)
        have h3 : (n + s - 1) / s = 1 := by
          have he : n + s - 1 = (n - 1) + s := by omega
          rw [he, Nat.add_div_right _ hs, Nat.div_eq_of_lt (by omega)]
        rw [h2, h3]
      · have h1 : n - s + s - 1 = n - 1 := by omega
        have h2 : n + s - 1 = (n - 1) + s := by omega
        rw [h1, h2, Nat.add_div_right _ hs]

/-- Concatenating the chunks in order recovers the original bytes. -/
theorem flatten_chunksOf (s : Nat) (hs : 0 < s) (data : Bytes) :
    (chunksOf s data).flatten = data := by
  generalize hn : data.length = n
  induction n using Nat.strong_induction_on generalizing data with
  | _ n ih =>
    rw [chunksOf_eq]
    by_cases ht : data.take s = []
    · rcases List.take_eq_nil_iff.mp ht with h0 | h0
      · omega
      · subst h0
        simp
    · have hdne : data ≠ [] := fun h0 => ht (List.take_eq_nil_iff.mpr (Or.inr h0))
      have hpos : 0 < n := by
        subst hn
        exact List.length_pos.mpr hdne
      have hdl : (data.drop s).length = n - s := by
        rw [List.length_drop, hn]
      rw [if_neg ht]
      simp only [List.flatten_cons]
      rw [ih (n - s) (by omega) (data.drop s) hdl]
      exact List.take_append_drop s data

/-- Every chunk except the last has length exactly `s`. -/
theorem chunksOf_dropLast_length (s : Nat) (hs : 0 < s) (data : Bytes) :
    ∀ c ∈ (chunksOf s data).dropLast, c.length = s := by
  generalize hn : data.length = n
  induction n using Nat.strong_induction_on generalizing data with
  | _ n ih =>
    rw [chunksOf_eq]
    by_cases ht : data.take s = []
    · simp [ht]
    · have hdne : data ≠ [] := fun h0 => ht (List.take_eq_nil_iff.mpr (Or.inr h0))
      have hpos : 0 < n := by
        subst hn
        exact List.length_pos.mpr hdne
      have hdl : (data.drop s).length = n - s := by
        rw [List.length_drop, hn]
      rw [if_neg ht]
      cases hrest : chunksOf s (data.drop s) with
      | nil => simp
      | cons r rs =>
        intro c hc
        rw [List.dropLast_cons_of_ne_nil (by simp)] at hc
        rcases List.mem_cons.mp hc with hchead | hctail
        · subst hchead
          have hdropne : data.drop s ≠ [] := by
            intro h0
            rw [(chunksOf_eq_nil_iff s (data.drop s) hs).mpr h0] at hrest
            exact absurd hrest.symm (List.cons_ne_nil r rs)
          have hgt : s < n := by
            have := List.length_pos.mpr hdropne
            omega
          rw [List.length_take, hn]
          omega
        · rw [← hrest] at hctail
          exact ih (n - s) (by omega) (data.drop s) hdl c hctail

/-- The last chunk has length `data.length % s`, or `s` when `s`
divides `data.length` evenly. -/
theorem chunksOf_getLast_length (s : Nat) (hs : 0 < s) (data : Bytes) :
    ∀ c, (chunksOf s data).getLast? = some c →
      c.length = if data.length % s = 0 then s else data.length % s := by
  generalize hn : data.length = n
  induction n using Nat.strong_induction_on generalizing data with
  | _ n ih =>
    intro c hc
    rw [chunksOf_eq] at hc
    by_cases ht : data.take s = []
    · simp [ht] at hc
    · have hdne : data ≠ [] := fun h0 => ht (List.take_eq_nil_iff.mpr (Or.inr h0))
      have hpos : 0 < n := by
        subst hn
        exact List.length_pos.mpr hdne
      have hdl : (data.drop s).length = n - s := by
        rw [List.length_drop, hn]
      rw [if_neg ht] at hc
      cases hrest : chunksOf s (data.drop s) with
      | nil =>
        rw [hrest] at hc
        simp at hc
        have hdrop : data.drop s = [] := (chunksOf_eq_nil_iff s (data.drop s) hs).mp hrest
        have hle : n ≤ s := by
          have := hdl
          rw [hdrop] at this
          simp at this
          omega
        rw [← hc, List.length_take, hn]
        rcases Nat.lt_or_ge n s with hlt | hge
        · rw [if_neg (by rw [Nat.mod_eq_of_lt hlt]; omega)]
          rw [Nat.mod_eq_of_lt hlt]
          omega
        · have heq : n = s := by omega
          rw [heq]
          simp
      | cons r rs =>
        rw [hrest] at hc
        rw [List.getLast?_cons_cons] at hc
        have hc2 : (chunksOf s (data.drop s)).getLast? = some c := by
          rw [hrest]
          exact hc
        have hmod : (n - s) % s = n % s := by
          have hdropne : data.drop s ≠ [] := by
            intro h0
            rw [(chunksOf_eq_nil_iff s (data.drop s) hs).mpr h0] at hrest
            exact absurd hrest.symm (List.cons_ne_nil r rs)
          have hgt : s < n := by
            have := List.length_pos.mpr hdropne
            omega
          exact (Nat.mod_eq_sub_mod (by omega)).symm
        rw [ih (n - s) (by omega) (data.drop s) hdl c hc2, hmod]

/-- Sum of chunk lengths equals the original size. -/
theorem chunksOf_sum_length (s : Nat) (hs : 0 < s) (data : Bytes) :
    ((chunksOf s data).map List.length).sum = data.length := by
  rw [← List.length_flatten, flatten_chunksOf s hs data]

theorem digitChar_lt_isDigit : ∀ d, d < 10 → (digitChar d).isDigit = true := by decide

theorem digitChar_isDigit (d : Nat) : (digitChar d).isDigit = true := by
  by_cases h : d < 10
  · exact digitChar_lt_isDigit d h
  · simp only [digitChar]
    rw [List.getD_eq_default]
    · decide
    · simp only [List.length_cons, List.length_nil]
      omega

theorem digitChar_toNat : ∀ d, d < 10 → (digitChar d).toNat = 48 + d := by decide

theorem natDigitsLoop_congr :
    ∀ f1 f2 n, n < f1 → n < f2 → natDigitsLoop f1 n = natDigitsLoop f2 n := by
  intro f1
  induction f1 with
  | zero => omega
  | succ g ih =>
    intro f2 n h1 h2
    cases f2 with
    | zero => omega
    | succ g2 =>
      by_cases hn : n < 10
      · simp [natDigitsLoop, hn]
      · have hdiv : n / 10 < n := Nat.div_lt_self (by omega) (by omega)
        simp only [natDigitsLoop, if_neg hn]
        rw [ih g2 (n / 10) (by omega) (by omega)]

/-- The recursion equation of the decimal renderer. -/
theorem natDigits_eq (n : Nat) :
    natDigits n =
      if n < 10 then [digitChar n]
      else natDigits (n / 10) ++ [digitChar (n % 10)] := by
  show natDigitsLoop (n + 1) n = _
  by_cases hn : n < 10
  · simp [natDigitsLoop, hn]
  · have hdiv : n / 10 < n := Nat.div_lt_self (by omega) (by omega)
    simp only [natDigitsLoop, if_neg hn]
    rw [natDigitsLoop_congr n (n / 10 + 1) (n / 10) (by omega) (by omega)]
    rfl

theorem natDigits_ne_nil (n : Nat) : natDigits n ≠ [] := by
  induction n using Nat.strong_induction_on with
  | _ n ih =>
    rw [natDigits_eq]
    by_cases hn : n < 10
    · simp [hn]
    · simp [hn]

theorem natDigits_all_isDigit (n : Nat) : ∀ c ∈ natDigits n, c.isDigit = true := by
  induction n using Nat.strong_induction_on with
  | _ n ih =>
    rw [natDigits_eq]
    by_cases hn : n < 10
    · intro c hc
      rw [if_pos hn] at hc
      simp at hc
      subst hc
      exact digitChar_isDigit n
    · intro c hc
      rw [if_neg hn] at hc
      rcases List.mem_append.mp hc with h1 | h1
      · exact ih (n / 10) (Nat.div_lt_self (by omega) (by omega)) c h1
      · simp at h1
        subst h1
        exact digitChar_isDigit (n % 10)

theorem digitsVal_append_single (l : PyStr) (c : Char) :
    digitsVal (l ++ [c]) = 10 * digitsVal l + (c.toNat - 48) := by
  simp [digitsVal, List.foldl_append]

theorem digitsVal_natDigits (n : Nat) : digitsVal (natDigits n) = n := by
  induction n using Nat.strong_induction_on with
  | _ n ih =>
    rw [natDigits_eq]
    by_cases hn : n < 10
    · rw [if_pos hn]
      simp [digitsVal, digitChar_toNat n hn]
    · rw [if_neg hn]
      rw [digitsVal_append_single, ih (n / 10) (Nat.div_lt_self (by omega) (by omega))]
      rw [digitChar_toNat (n % 10) (Nat.mod_lt n (by omega))]
      omega

theorem digitChar_lt_not_ws : ∀ d, d < 10 → isPyWs (digitChar d) = false := by decide

theorem digitChar_not_ws (d : Nat) : isPyWs (digitChar d) = false := by
  by_cases h : d < 10
  · exact digitChar_lt_not_ws d h
  · simp only [digitChar]
    rw [List.getD_eq_default]
    · decide
    · simp only [List.length_cons, List.length_nil]
      omega

theorem natDigits_all_digitChar (n : Nat) :
    ∀ c ∈ natDigits n, ∃ d, d < 10 ∧ c = digitChar d := by
  induction n using Nat.strong_induction_on with
  | _ n ih =>
    rw [natDigits_eq]
    by_cases hn : n < 10
    · intro c hc
      rw [if_pos hn] at hc
      simp at hc
      subst hc
      exact ⟨n, hn, rfl⟩
    · intro c hc
      rw [if_neg hn] at hc
      rcases List.mem_append.mp hc with h1 | h1
      · exact ih (n / 10) (Nat.div_lt_self (by omega) (by omega)) c h1
      · simp at h1
        subst h1
        exact ⟨n % 10, Nat.mod_lt n (by omega), rfl⟩

theorem natDigits_all_not_ws (n : Nat) : ∀ c ∈ natDigits n, isPyWs c = false := by
  intro c hc
  obtain ⟨d, _, hcd⟩ := natDigits_all_digitChar n c hc
  rw [hcd]
  exact digitChar_not_ws d

theorem isDigit_ne_dash (c : Char) (h : c.isDigit = true) : c ≠ '-' := by
  rintro rfl
  exact absurd h (by decide)

theorem isDigit_ne_plus (c : Char) (h : c.isDigit = true) : c ≠ '+' := by
  rintro rfl
  exact absurd h (by decide)

theorem dropWhile_eq_self_of_head (p : Char → Bool) (l : PyStr)
    (h : ∀ c, l.head? = some c → p c = false) : l.dropWhile p = l := by
  cases l with
  | nil => rfl
  | cons c cs =>
    rw [List.dropWhile_cons, h c rfl]
    simp

theorem rstrip_eq_self (l : PyStr) (h : ∀ c, l.getLast? = some c → isPyWs c = false) :
    rstrip l = l := by
  unfold rstrip
  rw [dropWhile_eq_self_of_head]
  · exact List.reverse_reverse l
  · intro c hc
    apply h
    rw [← List.head?_reverse]
    exact hc

theorem pyStrip_eq_self (l : PyStr) (hh : ∀ c, l.head? = some c → isPyWs c = false)
    (hl : ∀ c, l.getLast? = some c → isPyWs c = false) : pyStrip l = l := by
  unfold pyStrip
  rw [dropWhile_eq_self_of_head _ _ hh, rstrip_eq_self _ hl]

theorem natDigits_head_not_ws (n : Nat) :
    ∀ c, (natDigits n).head? = some c → isPyWs c = false := by
  intro c hc
  exact natDigits_all_not_ws n c (List.mem_of_mem_head? hc)

theorem natDigits_getLast_not_ws (n : Nat) :
    ∀ c, (natDigits n).getLast? = some c → isPyWs c = false := by
  intro c hc
  exact natDigits_all_not_ws n c (List.mem_of_mem_getLast? hc)

theorem pyDigit?_digitChar : ∀ d, d < 10 → pyDigit? (digitChar d) = some d := by decide

theorem digitsRun_cons_digit (prev : Bool) (acc : Nat) (c : Char) (cs : PyStr)
    (d : Nat) (h : pyDigit? c = some d) :
    digitsRun prev acc (c :: cs) = digitsRun true (10 * acc + d) cs := by
  conv_lhs => unfold digitsRun
  rw [h]

theorem digitsRun_digitChars :
    ∀ (cs : PyStr) (prev : Bool) (acc : Nat),
      (∀ c ∈ cs, ∃ d, d < 10 ∧ c = digitChar d) → cs ≠ [] →
      digitsRun prev acc cs =
        some (cs.foldl (fun a c => 10 * a + (c.toNat - 48)) acc) := by
  intro cs
  induction cs with
  | nil =>
    intro prev acc _ hne
    exact absurd rfl hne
  | cons c cs ih =>
    intro prev acc hall _
    obtain ⟨d, hd, hcd⟩ := hall c (List.mem_cons_self _ _)
    have hpd : pyDigit? c = some d := by
      rw [hcd]
      exact pyDigit?_digitChar d hd
    have htn : c.toNat - 48 = d := by
      rw [hcd, digitChar_toNat d hd]
      omega
    rw [digitsRun_cons_digit prev acc c cs d hpd, List.foldl_cons,
      show 10 * acc + (c.toNat - 48) = 10 * acc + d from by omega]
    cases hcs : cs with
    | nil => rfl
    | cons c2 cs2 =>
      rw [← hcs]
      exact ih true (10 * acc + d) (fun x hx => hall x (List.mem_cons_of_mem _ hx))
        (by rw [hcs]; exact List.cons_ne_nil _ _)

theorem pyDigitsVal?_natDigits (n : Nat) : pyDigitsVal? (natDigits n) = some n := by
  unfold pyDigitsVal?
  rw [digitsRun_digitChars (natDigits n) false 0 (natDigits_all_digitChar n)
    (natDigits_ne_nil n)]
  exact congrArg some (digitsVal_natDigits n)

theorem pyInt?_natDigits (n : Nat) : pyInt? (natDigits n) = some (n : Int) := by
  have hstrip : pyStrip (natDigits n) = natDigits n :=
    pyStrip_eq_self _ (natDigits_head_not_ws n) (natDigits_getLast_not_ws n)
  unfold pyInt?
  rw [hstrip]
  cases hl : natDigits n with
  | nil => exact absurd hl (natDigits_ne_nil n)
  | cons c cs =>
    have hc : c.isDigit = true :=
      natDigits_all_isDigit n c (by rw [hl]; exact List.mem_cons_self c cs)
    have hval : pyDigitsVal? (c :: cs) = some n := by
      rw [← hl]
      exact pyDigitsVal?_natDigits n
    simp only [pyIntCore]
    rw [if_neg (isDigit_ne_dash c hc), if_neg (isDigit_ne_plus c hc), hval]

theorem digitsVal_replicate_zero (z : Nat) (l : PyStr) :
    digitsVal (List.replicate z '0' ++ l) = digitsVal l := by
  induction z with
  | zero => simp
  | succ z ih =>
    rw [List.replicate_succ]
    show digitsVal ('0' :: (List.replicate z '0' ++ l)) = digitsVal l
    simp only [digitsVal, List.foldl_cons]
    exact ih

theorem digitsVal_pad3 (i : Nat) : digitsVal (pad3 i) = i := by
  unfold pad3
  rw [digitsVal_replicate_zero, digitsVal_natDigits]

theorem pad3_ne_nil (i : Nat) : pad3 i ≠ [] := by
  unfold pad3
  intro h
  rcases List.append_eq_nil.mp h with ⟨_, h2⟩
  exact natDigits_ne_nil i h2

theorem pad3_getLast?_isDigit (i : Nat) :
    ∃ c, (pad3 i).getLast? = some c ∧ c.isDigit = true := by
  unfold pad3
  rw [List.getLast?_append_of_ne_nil _ (natDigits_ne_nil i)]
  cases hl : (natDigits i).getLast? with
  | none =>
    rcases List.getLast?_eq_none_iff.mp hl with h
    exact absurd h (natDigits_ne_nil i)
  | some c =>
    exact ⟨c, rfl, natDigits_all_isDigit i c (List.mem_of_mem_getLast? hl)⟩

theorem partName_inj (b : PyStr) (i j : Nat) (h : partName b i = partName b j) : i = j := by
  unfold partName at h
  rw [List.append_assoc, List.append_assoc] at h
  have h2 := List.append_cancel_left h
  have h3 := List.append_cancel_left h2
  have h4 := congrArg digitsVal h3
  rw [digitsVal_pad3, digitsVal_pad3] at h4
  exact h4

theorem endsWithMeta_partName (b : PyStr) (i : Nat) :
    endsWithMeta (partName b i) = false := by
  rcases pad3_getLast?_isDigit i with ⟨c, hc, hcd⟩
  have hhead : (pad3 i).reverse.head? = some c := by
    rw [List.head?_reverse]
    exact hc
  cases hrev : (pad3 i).reverse with
  | nil =>
    rw [hrev] at hhead
    exact absurd hhead (by simp)
  | cons c2 t =>
    rw [hrev] at hhead
    simp only [List.head?_cons, Option.some.injEq] at hhead
    subst hhead
    unfold endsWithMeta partName
    rw [List.reverse_append, hrev, List.cons_append]
    rw [show (5 : Nat) = 4 + 1 from rfl, List.take_succ_cons]
    apply beq_eq_false_iff_ne.mpr
    intro heq
    have hmeta : (str ".meta").reverse = 'a' :: str "tem." := by decide
    rw [hmeta] at heq
    injection heq with h1 h2
    rw [h1] at hcd
    exact absurd hcd (by decide)

theorem endsWithMeta_append_meta (b : PyStr) :
    endsWithMeta (b ++ str ".meta") = true := by
  unfold endsWithMeta
  rw [List.reverse_append]
  have h5 : (5 : Nat) = ((str ".meta").reverse).length := by decide
  rw [h5, List.take_left]
  exact beq_self_eq_true _

theorem partName_ne_of_endsWithMeta (b : PyStr) (i : Nat) (x : PyStr)
    (hx : endsWithMeta x = true) : partName b i ≠ x := by
  intro h
  rw [← h] at hx
  rw [endsWithMeta_partName] at hx
  exact Bool.false_ne_true hx

theorem rebuilt_ne (v : PyStr) : str "rebuilt_" ++ v ≠ v := by
  intro h
  have h2 := congrArg List.length h
  rw [List.length_append] at h2
  have h3 : (str "rebuilt_").length = 8 := by decide
  omega

theorem not_mem_append (x : Char) (a b : PyStr) (ha : x ∉ a) (hb : x ∉ b) :
    x ∉ a ++ b := by
  intro hm
  rcases List.mem_append.mp hm with hm1 | hm1
  · exact ha hm1
  · exact hb hm1

theorem not_mem_cons (x c : Char) (b : PyStr) (hx : x ≠ c) (hb : x ∉ b) :
    x ∉ c :: b := by
  intro hm
  rcases List.mem_cons.mp hm with hm1 | hm1
  · exact hx hm1
  · exact hb hm1

theorem metaLine_not_mem (k : String) (v : PyStr) (x : Char) (hk : x ∉ str k)
    (hx : x ≠ '=') (hv : x ∉ v) : x ∉ metaLine k v := by
  unfold metaLine
  exact not_mem_append x _ _ hk (not_mem_cons x _ _ hx hv)

theorem univNL_cons_ne (c : Char) (rest : PyStr) (hc : c ≠ '\r') :
    univNL (c :: rest) = c :: univNL rest := by
  rw [univNL.eq_def]
  split
  · rename_i heq
    exact absurd heq (List.cons_ne_nil c rest)
  · rename_i heq
    exfalso
    injection heq with h1 _
    exact hc h1
  · rename_i heq
    exfalso
    injection heq with h1 _
    exact hc h1
  · rename_i heq
    injection heq with h1 h2
    rw [h1, h2]

theorem univNL_eq_self (l : PyStr) (h : '\r' ∉ l) : univNL l = l := by
  induction l with
  | nil => rfl
  | cons c rest ih =>
    have hc : c ≠ '\r' := by
      intro hcc
      subst hcc
      exact h (List.mem_cons_self _ _)
    have hr : '\r' ∉ rest := fun hm => h (List.mem_cons_of_mem c hm)
    rw [univNL_cons_ne c rest hc, ih hr]

theorem splitNL_newline (rest : PyStr) : splitNL ('\n' :: rest) = [] :: splitNL rest := by
  simp [splitNL]

theorem splitNL_cons_ne (c : Char) (rest : PyStr) (hc : c ≠ '\n') (l : PyStr)
    (ls : List PyStr) (h : splitNL rest = l :: ls) :
    splitNL (c :: rest) = (c :: l) :: ls := by
  simp only [splitNL, if_neg hc, h]

theorem splitNL_ne_nil (l : PyStr) : splitNL l ≠ [] := by
  induction l with
  | nil => simp [splitNL]
  | cons c rest ih =>
    by_cases hc : c = '\n'
    · subst hc
      rw [splitNL_newline]
      simp
    · cases hr : splitNL rest with
      | nil => exact absurd hr ih
      | cons a as =>
        rw [splitNL_cons_ne c rest hc a as hr]
        simp

theorem splitNL_append_newline (a b : PyStr) (ha : '\n' ∉ a) :
    splitNL (a ++ '\n' :: b) = a :: splitNL b := by
  induction a with
  | nil => rw [List.nil_append, splitNL_newline]
  | cons c cs ih =>
    have hc : c ≠ '\n' := by
      intro hcc
      subst hcc
      exact ha (List.mem_cons_self _ _)
    have hcs : '\n' ∉ cs := fun hm => ha (List.mem_cons_of_mem c hm)
    rw [List.cons_append, splitNL_cons_ne c (cs ++ '\n' :: b) hc cs (splitNL b) (ih hcs)]

/-- Reading the canonical five-line metadata text produces exactly the
five lines, in order, provided no field smuggles in a line break. -/
theorem pyLines_metaText5 (name nc os cz h : PyStr)
    (h1 : noNL name) (h2 : noNL nc) (h3 : noNL os) (h4 : noNL cz) (h5 : noNL h) :
    pyLines (metaText5 name nc os cz h) =
      [metaLine "original_name" name, metaLine "num_chunks" nc,
       metaLine "original_size" os, metaLine "chunk_size" cz,
       metaLine "sha256" h] := by
  have hcr : '\r' ∉ metaText5 name nc os cz h := by
    unfold metaText5
    apply not_mem_append _ _ _ (metaLine_not_mem _ _ _ (by decide) (by decide) h1.2)
    apply not_mem_cons _ _ _ (by decide)
    apply not_mem_append _ _ _ (metaLine_not_mem _ _ _ (by decide) (by decide) h2.2)
    apply not_mem_cons _ _ _ (by decide)
    apply not_mem_append _ _ _ (metaLine_not_mem _ _ _ (by decide) (by decide) h3.2)
    apply not_mem_cons _ _ _ (by decide)
    apply not_mem_append _ _ _ (metaLine_not_mem _ _ _ (by decide) (by decide) h4.2)
    apply not_mem_cons _ _ _ (by decide)
    apply not_mem_append _ _ _ (metaLine_not_mem _ _ _ (by decide) (by decide) h5.2)
    apply not_mem_cons _ _ _ (by decide)
    exact List.not_mem_nil '\r'
  have hl1 : '\n' ∉ metaLine "original_name" name :=
    metaLine_not_mem _ _ _ (by decide) (by decide) h1.1
  have hl2 : '\n' ∉ metaLine "num_chunks" nc :=
    metaLine_not_mem _ _ _ (by decide) (by decide) h2.1
  have hl3 : '\n' ∉ metaLine "original_size" os :=
    metaLine_not_mem _ _ _ (by decide) (by decide) h3.1
  have hl4 : '\n' ∉ metaLine "chunk_size" cz :=
    metaLine_not_mem _ _ _ (by decide) (by decide) h4.1
  have hl5 : '\n' ∉ metaLine "sha256" h :=
    metaLine_not_mem _ _ _ (by decide) (by decide) h5.1
  unfold metaText5 at hcr
  unfold pyLines metaText5
  rw [univNL_eq_self _ hcr]
  rw [splitNL_append_newline _ _ hl1, splitNL_append_newline _ _ hl2,
    splitNL_append_newline _ _ hl3, splitNL_append_newline _ _ hl4,
    splitNL_append_newline _ _ hl5]
  have hsplit : splitNL ([] : PyStr) = [[]] := rfl
  rw [hsplit]
  have hform :
      metaLine "original_name" name :: metaLine "num_chunks" nc ::
        metaLine "original_size" os :: metaLine "chunk_size" cz ::
        metaLine "sha256" h :: ([[]] : List PyStr) =
      [metaLine "original_name" name, metaLine "num_chunks" nc,
       metaLine "original_size" os, metaLine "chunk_size" cz,
       metaLine "sha256" h] ++ [[]] := rfl
  rw [hform, List.getLast?_concat, if_pos rfl, List.dropLast_concat]

theorem pyStrip_eq_rstrip_of_head (l : PyStr)
    (hh : ∀ c, l.head? = some c → isPyWs c = false) : pyStrip l = rstrip l := by
  unfold pyStrip
  rw [dropWhile_eq_self_of_head _ _ hh]

theorem dropWhile_append_barrier (p : Char → Bool) (l1 : PyStr) (a : Char)
    (l2 : PyStr) (ha : p a = false) :
    (l1 ++ a :: l2).dropWhile p = l1.dropWhile p ++ a :: l2 := by
  induction l1 with
  | nil => simp [List.dropWhile_cons, ha]
  | cons c cs ih =>
    rw [List.cons_append, List.dropWhile_cons, List.dropWhile_cons]
    by_cases hc : p c = true
    · rw [if_pos hc, if_pos hc, ih]
    · rw [if_neg hc, if_neg hc, List.cons_append]

theorem rstrip_key_value (k v : PyStr) :
    rstrip (k ++ '=' :: v) = k ++ '=' :: rstrip v := by
  unfold rstrip
  rw [List.reverse_append, List.reverse_cons, List.append_assoc, List.singleton_append]
  rw [dropWhile_append_barrier isPyWs v.reverse '=' k.reverse (by decide)]
  rw [List.reverse_append, List.reverse_cons, List.reverse_reverse]
  rw [List.append_assoc, List.singleton_append]

/-- A nonempty string that does not start with whitespace. -/
def headOk (l : PyStr) : Bool :=
  match l.head? with
  | none => false
  | some c => !isPyWs c

theorem splitFirst_key (k v : PyStr) (hk : '=' ∉ k) :
    splitFirst '=' (k ++ '=' :: v) = some (k, v) := by
  induction k with
  | nil => simp [splitFirst]
  | cons c cs ih =>
    have hc : c ≠ '=' := by
      intro hcc
      subst hcc
      exact hk (List.mem_cons_self _ _)
    have hcs : '=' ∉ cs := fun hm => hk (List.mem_cons_of_mem c hm)
    rw [List.cons_append]
    simp only [splitFirst, if_neg hc, ih hcs]

/-- Parsing one canonical metadata line: `line.strip().split('=', 1)`
yields the key and the right-stripped value. -/
theorem parse_metaLine (k : String) (v : PyStr) (hk1 : '=' ∉ str k)
    (hk2 : headOk (str k) = true) :
    splitFirst '=' (pyStrip (metaLine k v)) = some (str k, rstrip v) := by
  unfold metaLine
  cases hK : str k with
  | nil =>
    rw [hK] at hk2
    exact absurd hk2 (by decide)
  | cons kc ks =>
    have hkc : isPyWs kc = false := by
      rw [hK] at hk2
      unfold headOk at hk2
      simp only [List.head?_cons] at hk2
      cases hw : isPyWs kc
      · rfl
      · rw [hw] at hk2
        exact absurd hk2 (by decide)
    have hk3 : '=' ∉ (kc :: ks) := by
      rw [← hK]
      exact hk1
    have hh : ∀ c, ((kc :: ks) ++ '=' :: v).head? = some c → isPyWs c = false := by
      intro c hc
      rw [List.cons_append, List.head?_cons] at hc
      injection hc with hc1
      rw [← hc1]
      exact hkc
    rw [pyStrip_eq_rstrip_of_head _ hh, rstrip_key_value, splitFirst_key _ _ hk3]

theorem lastOk_spec (v : PyStr) (h : lastOk v = true) :
    ∀ c, v.getLast? = some c → isPyWs c = false := by
  intro c hc
  have h2 : (!isPyWs c) = true := by
    unfold lastOk at h
    rw [hc] at h
    exact h
  cases hw : isPyWs c
  · rfl
  · rw [hw] at h2
    exact absurd h2 (by decide)

theorem rstrip_cleanField (v : PyStr) (h : cleanField v) : rstrip v = v :=
  rstrip_eq_self v (lastOk_spec v h.2)

theorem parseLines_cons_some (l : PyStr) (ls : List PyStr) (d : List (PyStr × PyStr))
    (k v : PyStr) (h : splitFirst '=' (pyStrip l) = some (k, v)) :
    parseLines (l :: ls) d = parseLines ls ((k, v) :: d) := by
  simp only [parseLines, h]

/-- The dictionary the metadata-reading loop builds from the canonical
five-line text: all five keys bound, most recent first, with
right-stripped values. -/
theorem parseLines_metaText5 (name nc os cz h : PyStr)
    (h1 : noNL name) (h2 : noNL nc) (h3 : noNL os) (h4 : noNL cz) (h5 : noNL h) :
    parseLines (pyLines (metaText5 name nc os cz h)) [] =
      some [(str "sha256", rstrip h), (str "chunk_size", rstrip cz),
            (str "original_size", rstrip os), (str "num_chunks", rstrip nc),
            (str "original_name", rstrip name)] := by
  rw [pyLines_metaText5 name nc os cz h h1 h2 h3 h4 h5,
    parseLines_cons_some _ _ _ _ _ (parse_metaLine "original_name" name (by decide) (by decide)),
    parseLines_cons_some _ _ _ _ _ (parse_metaLine "num_chunks" nc (by decide) (by decide)),
    parseLines_cons_some _ _ _ _ _ (parse_metaLine "original_size" os (by decide) (by decide)),
    parseLines_cons_some _ _ _ _ _ (parse_metaLine "chunk_size" cz (by decide) (by decide)),
    parseLines_cons_some _ _ _ _ _ (parse_metaLine "sha256" h (by decide) (by decide))]
  rfl

theorem dictLookup_cons_eq (k v : PyStr) (rest : List (PyStr × PyStr)) :
    dictLookup ((k, v) :: rest) k = some v := by
  simp [dictLookup]

theorem dictLookup_cons_ne (k v key : PyStr) (rest : List (PyStr × PyStr))
    (h : k ≠ key) : dictLookup ((k, v) :: rest) key = dictLookup rest key := by
  simp only [dictLookup, if_neg h]

/-- Decoding the canonical five-line metadata text: the result depends
only on the four keys `join_files` reads; the `chunk_size` value does
not appear on the right-hand side at all. -/
theorem decodeForJoin_metaText5 (name nc os cz h : PyStr)
    (h1 : noNL name) (h2 : noNL nc) (h3 : noNL os) (h4 : noNL cz) (h5 : noNL h) :
    decodeForJoin (metaText5 name nc os cz h) =
      (pyInt? (rstrip nc)).bind fun ncI =>
      (pyInt? (rstrip os)).bind fun osI =>
      some ⟨rstrip name, ncI, osI, rstrip h⟩ := by
  unfold decodeForJoin
  rw [parseLines_metaText5 name nc os cz h h1 h2 h3 h4 h5, Option.some_bind]
  rw [dictLookup_cons_ne _ _ _ _ (by decide), dictLookup_cons_ne _ _ _ _ (by decide),
    dictLookup_cons_ne _ _ _ _ (by decide), dictLookup_cons_ne _ _ _ _ (by decide),
    dictLookup_cons_eq, Option.some_bind]
  rw [dictLookup_cons_ne _ _ _ _ (by decide), dictLookup_cons_ne _ _ _ _ (by decide),
    dictLookup_cons_ne _ _ _ _ (by decide), dictLookup_cons_eq, Option.some_bind]
  cases hnc : pyInt? (rstrip nc) with
  | none => rfl
  | some ncI =>
    rw [Option.some_bind, Option.some_bind]
    rw [dictLookup_cons_ne _ _ _ _ (by decide), dictLookup_cons_ne _ _ _ _ (by decide),
      dictLookup_cons_eq, Option.some_bind]
    cases hos : pyInt? (rstrip os) with
    | none => rfl
    | some osI =>
      rw [Option.some_bind, Option.some_bind]
      rw [dictLookup_cons_eq]
      rfl

theorem noNL_natDigits (n : Nat) : noNL (natDigits n) := by
  constructor
  · intro hm
    exact absurd (natDigits_all_isDigit n _ hm) (by decide)
  · intro hm
    exact absurd (natDigits_all_isDigit n _ hm) (by decide)

theorem rstrip_natDigits (n : Nat) : rstrip (natDigits n) = natDigits n :=
  rstrip_eq_self _ (natDigits_getLast_not_ws n)

theorem lookupFile_writeFile_self (cwd : Dir) (n : PyStr) (c : FData) :
    lookupFile (writeFile cwd n c) n = some c := by
  induction cwd with
  | nil => simp [writeFile, lookupFile]
  | cons e rest ih =>
    obtain ⟨m, c0⟩ := e
    by_cases hm : m = n
    · subst hm
      simp [writeFile, lookupFile]
    · simp [writeFile, lookupFile, hm, ih]

theorem lookupFile_writeFile_ne (cwd : Dir) (n m : PyStr) (c : FData) (h : m ≠ n) :
    lookupFile (writeFile cwd n c) m = lookupFile cwd m := by
  induction cwd with
  | nil =>
    simp [writeFile, lookupFile]
    intro h2
    exact absurd h2.symm h
  | cons e rest ih =>
    obtain ⟨m0, c0⟩ := e
    by_cases hm : m0 = n
    · subst hm
      simp only [writeFile, if_pos rfl, lookupFile]
      rw [if_neg (fun h2 => h h2.symm), if_neg (fun h2 => h h2.symm)]
    · simp only [writeFile, if_neg hm, lookupFile]
      by_cases hm2 : m0 = m
      · rw [if_pos hm2, if_pos hm2]
      · rw [if_neg hm2, if_neg hm2, ih]

theorem findMetaName_append_none (a rest : Dir)
    (ha : ∀ p ∈ a, endsWithMeta p.1 = false) :
    findMetaName (a ++ rest) = findMetaName rest := by
  induction a with
  | nil => rfl
  | cons e es ih =>
    obtain ⟨n, c⟩ := e
    have hn : endsWithMeta n = false := ha (n, c) (List.mem_cons_self _ _)
    rw [List.cons_append]
    simp only [findMetaName, hn]
    exact ih (fun p hp => ha p (List.mem_cons_of_mem _ hp))

theorem findMetaName_cons_meta (n : PyStr) (c : FData) (rest : Dir)
    (hn : endsWithMeta n = true) : findMetaName ((n, c) :: rest) = some n := by
  simp only [findMetaName, hn]
  rfl

theorem chunkEntries_all_not_meta (b : PyStr) (cs : List Bytes) :
    ∀ start, ∀ p ∈ chunkEntries b start cs, endsWithMeta p.1 = false := by
  induction cs with
  | nil => simp [chunkEntries]
  | cons c cs ih =>
    intro start p hp
    rcases List.mem_cons.mp hp with h | h
    · subst h
      exact endsWithMeta_partName b start
    · exact ih (start + 1) p h

theorem lookupFile_chunkEntries_meta (b : PyStr) (cs : List Bytes) (rest : Dir)
    (nm : PyStr) (hnm : endsWithMeta nm = true) :
    ∀ start, lookupFile (chunkEntries b start cs ++ rest) nm = lookupFile rest nm := by
  induction cs with
  | nil => intro start; rfl
  | cons c cs ih =>
    intro start
    simp only [chunkEntries, List.cons_append, lookupFile]
    rw [if_neg (partName_ne_of_endsWithMeta b start nm hnm)]
    exact ih (start + 1)

theorem lookupFile_chunkEntries_at (b : PyStr) (cs : List Bytes) (rest : Dir) :
    ∀ start i, i < cs.length →
      lookupFile (chunkEntries b start cs ++ rest) (partName b (start + i)) =
        some (.bin (cs.getD i [])) := by
  induction cs with
  | nil =>
    intro start i hi
    simp at hi
  | cons c cs ih =>
    intro start i hi
    simp only [chunkEntries, List.cons_append, lookupFile]
    cases i with
    | zero =>
      rw [Nat.add_zero, if_pos rfl]
      rfl
    | succ j =>
      have hne : partName b start ≠ partName b (start + (j + 1)) := by
        intro he
        have := partName_inj b start (start + (j + 1)) he
        omega
      rw [if_neg hne]
      have hstep := ih (start + 1) j (by simpa using hi)
      rw [show start + 1 + j = start + (j + 1) from by omega] at hstep
      exact hstep

/-- Once the metadata file has been located, read and decoded, the rest
of `join_files` is the missing-check followed by reconstruction. -/
theorem joinFiles_eq_of (digest : Bytes → PyStr) (folderName : PyStr) (dir cwd : Dir)
    (mn text : PyStr) (jm : JMeta) (hm : findMetaName dir = some mn)
    (ht : readTextFile dir mn = some text) (hd : decodeForJoin text = some jm) :
    joinFiles digest folderName dir cwd =
      if (missingList folderName dir jm).isEmpty then
        (.rebuilt (chooseOutName cwd jm.original_name)
           (verdictOf digest jm (expectedOutput dir jm)),
         writeFile cwd (chooseOutName cwd jm.original_name)
           (.bin (expectedOutput dir jm)))
      else (.missingChunks (missingList folderName dir jm), cwd) := by
  unfold joinFiles
  rw [hm]
  dsimp only
  rw [ht]
  dsimp only
  rw [hd]

theorem joinFiles_badMeta (digest : Bytes → PyStr) (folderName : PyStr) (dir cwd : Dir)
    (mn text : PyStr) (hm : findMetaName dir = some mn)
    (ht : readTextFile dir mn = some text) (hd : decodeForJoin text = none) :
    joinFiles digest folderName dir cwd = (.badMeta, cwd) := by
  unfold joinFiles
  rw [hm]
  dsimp only
  rw [ht]
  dsimp only
  rw [hd]

/-- Membership in the missing-chunk report: exactly the joined paths of
the expected chunk files that are absent from the directory. -/
theorem mem_missingList (folderName : PyStr) (d : Dir) (jm : JMeta) (p : PyStr) :
    p ∈ missingList folderName d jm ↔
      ∃ i, i < jm.num_chunks.toNat ∧
        p = pathJoin folderName (partName jm.original_name i) ∧
        hasFile d (partName jm.original_name i) = false := by
  unfold missingList
  simp only [List.mem_map, List.mem_filter, List.mem_range, Bool.not_eq_true']
  constructor
  · rintro ⟨i, ⟨hi, hf⟩, hp⟩
    exact ⟨i, hi, hp.symm, hf⟩
  · rintro ⟨i, hi, hp, hf⟩
    exact ⟨i, ⟨hi, hf⟩, hp.symm⟩

theorem findMetaName_splitDir (r : SplitResult) :
    findMetaName (splitDir r) = some (r.meta.original_name ++ str ".meta") := by
  unfold splitDir
  rw [findMetaName_append_none _ _ (chunkEntries_all_not_meta r.meta.original_name r.chunks 0)]
  exact findMetaName_cons_meta _ _ _ (endsWithMeta_append_meta _)

theorem readTextFile_splitDir (r : SplitResult) :
    readTextFile (splitDir r) (r.meta.original_name ++ str ".meta") =
      some (encodeMeta r.meta) := by
  unfold readTextFile splitDir
  rw [lookupFile_chunkEntries_meta _ _ _ _ (endsWithMeta_append_meta _) 0]
  simp [lookupFile, fdataText]

/-- Decoding the metadata text `split_file` wrote recovers the name,
chunk count, size and digest, provided the base name and digest are
newline-free and do not end in whitespace. -/
theorem decodeForJoin_encodeMeta (m : Meta) (hb : cleanField m.original_name)
    (hh : cleanField m.sha256) :
    decodeForJoin (encodeMeta m) =
      some ⟨m.original_name, (m.num_chunks : Int), (m.original_size : Int), m.sha256⟩ := by
  unfold encodeMeta
  rw [decodeForJoin_metaText5 _ _ _ _ _ hb.1 (noNL_natDigits _) (noNL_natDigits _)
    (noNL_natDigits _) hh.1]
  rw [rstrip_natDigits, rstrip_natDigits, pyInt?_natDigits, Option.some_bind,
    pyInt?_natDigits, Option.some_bind]
  rw [rstrip_cleanField _ hb, rstrip_cleanField _ hh]

theorem hasFile_splitDir_part (r : SplitResult) (i : Nat) (hi : i < r.chunks.length) :
    hasFile (splitDir r) (partName r.meta.original_name i) = true := by
  unfold hasFile splitDir
  have hl := lookupFile_chunkEntries_at r.meta.original_name r.chunks
    [(r.meta.original_name ++ str ".meta", FData.txt (encodeMeta r.meta))] 0 i hi
  rw [Nat.zero_add] at hl
  rw [hl]
  rfl

theorem missingList_splitDir (folderName : PyStr) (r : SplitResult) (jm : JMeta)
    (hname : jm.original_name = r.meta.original_name)
    (hnum : jm.num_chunks.toNat = r.chunks.length) :
    missingList folderName (splitDir r) jm = [] := by
  unfold missingList
  rw [hname, hnum]
  have hfil : (List.range r.chunks.length).filter
      (fun i => !(hasFile (splitDir r) (partName r.meta.original_name i))) = [] := by
    rw [List.filter_eq_nil_iff]
    intro i hi
    rw [hasFile_splitDir_part r i (List.mem_range.mp hi)]
    simp
  rw [hfil]
  rfl

theorem readBinD_splitDir_part (r : SplitResult) (i : Nat) (hi : i < r.chunks.length) :
    readBinD (splitDir r) (partName r.meta.original_name i) = r.chunks.getD i [] := by
  unfold readBinD splitDir
  have hl := lookupFile_chunkEntries_at r.meta.original_name r.chunks
    [(r.meta.original_name ++ str ".meta", FData.txt (encodeMeta r.meta))] 0 i hi
  rw [Nat.zero_add] at hl
  rw [hl]

theorem range_map_getD (l : List Bytes) :
    (List.range l.length).map (fun i => l.getD i []) = l := by
  induction l with
  | nil => rfl
  | cons a l ih =>
    have h1 : (a :: l).length = l.length + 1 := rfl
    rw [h1, List.range_succ_eq_map, List.map_cons, List.map_map]
    have hfun : ((fun i => (a :: l).getD i []) ∘ Nat.succ) = fun i => l.getD i [] := by
      funext i
      rfl
    rw [hfun, ih]
    rfl

theorem expectedOutput_splitDir (r : SplitResult) (jm : JMeta)
    (hname : jm.original_name = r.meta.original_name)
    (hnum : jm.num_chunks.toNat = r.chunks.length) :
    expectedOutput (splitDir r) jm = r.chunks.flatten := by
  unfold expectedOutput
  rw [hname, hnum]
  have hmap : ∀ i ∈ List.range r.chunks.length,
      readBinD (splitDir r) (partName r.meta.original_name i) = r.chunks.getD i [] :=
    fun i hi => readBinD_splitDir_part r i (List.mem_range.mp hi)
  rw [List.map_congr_left hmap, range_map_getD]

/-- A concrete stand-in for `get_file_hash` used by witnesses: any
function of the content will do, since the program treats the digest as
an opaque string. -/
def exDigest : Bytes → PyStr := fun bs => 'd' :: natDigits bs.length

/-- C4.  Chunk count correctness: for every source file of size `n` and
chunk size `s > 0` (in bytes), `split_file` writes exactly
`ceil(n / s)` chunk files and records that count as `num_chunks`; the
recorded count satisfies the ceiling characterization when `n > 0`, and
a zero-byte source yields zero chunk files and `num_chunks = 0`. -/
theorem c4_chunk_count (digest : Bytes → PyStr) (base : PyStr) (data : Bytes)
    (s : Nat) (hs : 0 < s) :
    (splitFile digest base data s).chunks.length = (data.length + s - 1) / s ∧
    (splitFile digest base data s).meta.num_chunks = (data.length + s - 1) / s ∧
    (0 < data.length →
      isCeilOf data.length s ((splitFile digest base data s).meta.num_chunks)) ∧
    (data.length = 0 →
      (splitFile digest base data s).chunks = [] ∧
      (splitFile digest base data s).meta.num_chunks = 0) := by
  have hlen : (splitFile digest base data s).chunks.length = (data.length + s - 1) / s :=
    length_chunksOf s hs data
  refine ⟨hlen, hlen, ?_, ?_⟩
  · intro hn
    show isCeilOf data.length s (chunksOf s data).length
    rw [show (chunksOf s data).length = (data.length + s - 1) / s from hlen]
    constructor
    · have h1 := Nat.div_add_mod (data.length + s - 1) s
      have h2 : (data.length + s - 1) % s < s := Nat.mod_lt _ hs
      have h3 : ((data.length + s - 1) / s) * s = s * ((data.length + s - 1) / s) :=
        Nat.mul_comm _ _
      rw [h3]
      omega
    · have h1 := Nat.div_add_mod (data.length + s - 1) s
      have h2 : (data.length + s - 1) % s < s := Nat.mod_lt _ hs
      have h3 : ((data.length + s - 1) / s) * s = s * ((data.length + s - 1) / s) :=
        Nat.mul_comm _ _
      rw [h3]
      omega
  · intro h0
    have hnil : chunksOf s data = [] := by
      rw [(chunksOf_eq_nil_iff s data hs)]
      exact List.eq_nil_of_length_eq_zero h0
    exact ⟨hnil, by show (chunksOf s data).length = 0; rw [hnil]; rfl⟩

theorem c4_chunk_count_witness :
    (0 < 2 ∧
      (splitFile exDigest (str "a") [1, 2, 3, 4, 5] 2).chunks.length =
        (([1, 2, 3, 4, 5] : Bytes).length + 2 - 1) / 2) ∧
    (0 < 2 ∧
      (splitFile exDigest (str "b") ([] : Bytes) 2).chunks = []) := by
  constructor
  · exact ⟨by decide, (c4_chunk_count exDigest (str "a") [1, 2, 3, 4, 5] 2 (by decide)).1⟩
  · exact ⟨by decide,
      ((c4_chunk_count exDigest (str "b") [] 2 (by decide)).2.2.2 (by decide)).1⟩

/-- C5.  Chunk size shape: after a split with chunk size `s > 0`, every
chunk except the last has length exactly `s`, the last chunk has length
`n mod s` (or `s` when `s` divides `n`), and the chunk lengths sum to
`n`. -/
theorem c5_chunk_shape (digest : Bytes → PyStr) (base : PyStr) (data : Bytes)
    (s : Nat) (hs : 0 < s) :
    (∀ c ∈ (splitFile digest base data s).chunks.dropLast, c.length = s) ∧
    (∀ c, (splitFile digest base data s).chunks.getLast? = some c →
      c.length = if data.length % s = 0 then s else data.length % s) ∧
    ((splitFile digest base data s).chunks.map List.length).sum = data.length :=
  ⟨chunksOf_dropLast_length s hs data, chunksOf_getLast_length s hs data,
    chunksOf_sum_length s hs data⟩

theorem c5_chunk_shape_witness :
    0 < 2 ∧
    ((∀ c ∈ (splitFile exDigest (str "a") [1, 2, 3, 4, 5] 2).chunks.dropLast,
        c.length = 2) ∧
      (∀ c, (splitFile exDigest (str "a") [1, 2, 3, 4, 5] 2).chunks.getLast? = some c →
        c.length =
          if ([1, 2, 3, 4, 5] : Bytes).length % 2 = 0 then 2
          else ([1, 2, 3, 4, 5] : Bytes).length % 2) ∧
      ((splitFile exDigest (str "a") [1, 2, 3, 4, 5] 2).chunks.map List.length).sum =
        ([1, 2, 3, 4, 5] : Bytes).length) :=
  ⟨by decide, c5_chunk_shape exDigest (str "a") [1, 2, 3, 4, 5] 2 (by decide)⟩

/-- C10.  Behavior outside the chunk-size precondition: with a chunk
size of 0 MB (hence 0 bytes), `f.read(0)` returns empty at once, so
`split_file` terminates having written zero chunk files and records
`num_chunks = 0` with `original_size = n`; for `n > 0` the recorded
pair violates the `num_chunks = ceil(n / chunk_size)` invariant (no
count satisfies the ceiling characterization when the divisor is 0). -/
theorem c10_zero_chunk_size (digest : Bytes → PyStr) (base : PyStr) (data : Bytes) :
    (splitFileMB digest base data 0).chunks = [] ∧
    (splitFileMB digest base data 0).meta.num_chunks = 0 ∧
    (splitFileMB digest base data 0).meta.original_size = data.length ∧
    (0 < data.length →
      ¬ isCeilOf data.length 0 ((splitFileMB digest base data 0).meta.num_chunks)) := by
  have hchunks : (splitFileMB digest base data 0).chunks = [] := by
    show chunksOf (0 * 1024 * 1024) data = []
    rw [show (0 : Nat) * 1024 * 1024 = 0 from rfl]
    exact chunksOf_zero data
  have hnum : (splitFileMB digest base data 0).meta.num_chunks = 0 := by
    show (chunksOf (0 * 1024 * 1024) data).length = 0
    rw [show (0 : Nat) * 1024 * 1024 = 0 from rfl, chunksOf_zero]
    rfl
  refine ⟨hchunks, hnum, rfl, ?_⟩
  intro hn hceil
  rw [hnum] at hceil
  unfold isCeilOf at hceil
  omega

theorem c10_zero_chunk_size_witness :
    (splitFileMB exDigest (str "a") [7, 8, 9] 0).chunks = [] ∧
    (splitFileMB exDigest (str "a") [7, 8, 9] 0).meta.num_chunks = 0 ∧
    ¬ isCeilOf ([7, 8, 9] : Bytes).length 0
        ((splitFileMB exDigest (str "a") [7, 8, 9] 0).meta.num_chunks) := by
  refine ⟨(c10_zero_chunk_size exDigest (str "a") [7, 8, 9]).1,
    (c10_zero_chunk_size exDigest (str "a") [7, 8, 9]).2.1,
    (c10_zero_chunk_size exDigest (str "a") [7, 8, 9]).2.2.2 (by decide)⟩

/-- C8 (amended).  Canonical metadata encoding: for every split of a
file whose base name contains no newline or carriage return (true of
the hex digest as well), the text `split_file` writes is exactly five
newline-terminated `key=value` lines in the order `original_name`,
`num_chunks`, `original_size`, `chunk_size`, `sha256`, with the values
taken from the split (base name, chunk count, source size, chunk size
in bytes, digest).  Stated as: reading the encoded text back
line-by-line yields exactly those five lines. -/
theorem c8_metadata_encoding (digest : Bytes → PyStr) (base : PyStr) (data : Bytes)
    (s : Nat) (hb : noNL base) (hd : noNL (digest data)) :
    pyLines (encodeMeta (splitFile digest base data s).meta) =
      [metaLine "original_name" base,
       metaLine "num_chunks" (natDigits (splitFile digest base data s).chunks.length),
       metaLine "original_size" (natDigits data.length),
       metaLine "chunk_size" (natDigits s),
       metaLine "sha256" (digest data)] := by
  show pyLines (metaText5 base (natDigits (chunksOf s data).length)
    (natDigits data.length) (natDigits s) (digest data)) = _
  exact pyLines_metaText5 _ _ _ _ _ hb (noNL_natDigits _) (noNL_natDigits _)
    (noNL_natDigits _) hd

/-- C1 (amended).  Round-trip identity: for every chunk size `s > 0`
and every file whose base name has no newline or carriage return and
does not end in whitespace (and any digest function whose output is
equally clean, as hex digests are), joining the chunk-set directory
produced by the split writes an output file byte-identical to the
source and reports a digest match (`Verdict.ok` covers both the size
and the hash comparison succeeding). -/
theorem c1_round_trip (digest : Bytes → PyStr) (base : PyStr) (data : Bytes)
    (s : Nat) (folderName : PyStr) (cwd : Dir) (hs : 0 < s) (hb : cleanField base)
    (hd : cleanField (digest data)) :
    joinFiles digest folderName (splitDir (splitFile digest base data s)) cwd =
      (.rebuilt (chooseOutName cwd base) .ok,
       writeFile cwd (chooseOutName cwd base) (.bin data)) := by
  set r := splitFile digest base data s with hr
  have hdec : decodeForJoin (encodeMeta r.meta) =
      some ⟨base, (r.chunks.length : Int), (data.length : Int), digest data⟩ :=
    decodeForJoin_encodeMeta r.meta hb hd
  have hnum : ((r.chunks.length : Int)).toNat = r.chunks.length := Int.toNat_natCast _
  have hmiss : missingList folderName (splitDir r)
      ⟨base, (r.chunks.length : Int), (data.length : Int), digest data⟩ = [] :=
    missingList_splitDir folderName r _ rfl hnum
  have hout : expectedOutput (splitDir r)
      ⟨base, (r.chunks.length : Int), (data.length : Int), digest data⟩ = data := by
    rw [expectedOutput_splitDir r _ rfl hnum]
    exact flatten_chunksOf s hs data
  rw [joinFiles_eq_of digest folderName (splitDir r) cwd
    (base ++ str ".meta") (encodeMeta r.meta)
    ⟨base, (r.chunks.length : Int), (data.length : Int), digest data⟩
    (findMetaName_splitDir r) (readTextFile_splitDir r) hdec]
  rw [hmiss, if_pos (show ([] : List PyStr).isEmpty = true from rfl), hout]
  have hverd : verdictOf digest
      ⟨base, (r.chunks.length : Int), (data.length : Int), digest data⟩ data = .ok := by
    unfold verdictOf
    rw [if_pos rfl, if_pos rfl]
  rw [hverd]

theorem c1_round_trip_witness :
    (0 < 2 ∧ cleanField (str "a") ∧ cleanField (exDigest [1, 2, 3])) ∧
    joinFiles exDigest (str "f") (splitDir (splitFile exDigest (str "a") [1, 2, 3] 2)) [] =
      (.rebuilt (chooseOutName [] (str "a")) .ok,
       writeFile [] (chooseOutName [] (str "a")) (.bin [1, 2, 3])) :=
  ⟨⟨by decide, by decide, by decide⟩,
    c1_round_trip exDigest (str "a") [1, 2, 3] 2 (str "f") [] (by decide) (by decide)
      (by decide)⟩

/-- C1 counterexample: the claim as stated fails for a file whose base
name ends in whitespace.  Splitting the one-byte file named `"a "`
(trailing space) with chunk size 1 and joining the resulting directory
does not write any output: the `line.strip()` in the metadata parser
turns `original_name=a ` into the name `a`, so join looks for
`a.part000`, finds only `a .part000`, and aborts with a missing-chunk
report. -/
theorem c1_round_trip_counterexample :
    joinFiles exDigest (str "f") (splitDir (splitFile exDigest (str "a ") [120] 1)) [] =
      (.missingChunks [str "f/a.part000"], []) := by decide

theorem c8_metadata_encoding_witness :
    noNL (str "a") ∧ noNL (exDigest [1, 2, 3]) ∧
    pyLines (encodeMeta (splitFile exDigest (str "a") [1, 2, 3] 2).meta) =
      [metaLine "original_name" (str "a"),
       metaLine "num_chunks" (natDigits (splitFile exDigest (str "a") [1, 2, 3] 2).chunks.length),
       metaLine "original_size" (natDigits ([1, 2, 3] : Bytes).length),
       metaLine "chunk_size" (natDigits 2),
       metaLine "sha256" (exDigest [1, 2, 3])] :=
  ⟨by decide, by decide,
    c8_metadata_encoding exDigest (str "a") [1, 2, 3] 2 (by decide) (by decide)⟩

/-- C8 counterexample: the claim as stated is false for a base name
containing a newline.  Splitting the one-byte file named `"a\nb"`
writes `original_name=a\nb\n` (chunker.py line 64), so the metadata
file consists of six lines, the second of which (`b`) is not a
`key=value` line at all — not the claimed five canonical lines. -/
theorem c8_metadata_encoding_counterexample :
    pyLines (encodeMeta (splitFile exDigest (str "a\nb") [1] 1).meta) =
      [str "original_name=a", str "b", str "num_chunks=1", str "original_size=1",
       str "chunk_size=1", str "sha256=d1"] := by decide

/-- Metadata text used by concrete join examples: one expected chunk,
but the directory holds no chunk file. -/
def c3text : PyStr :=
  str "original_name=a\nnum_chunks=1\noriginal_size=1\nchunk_size=1\nsha256=h\n"

/-- A chunk-set directory holding only the metadata record above. -/
def c3dir : Dir := [(str "a.meta", FData.txt c3text)]

/-- The record `c3text` decodes to. -/
def c3jm : JMeta := ⟨str "a", 1, 1, str "h"⟩

/-- C3.  Missing-chunk detection: when the decoded metadata promises
`num_chunks = k` chunk files and at least one expected file
`<original_name>.part<i>` (3-digit zero-padded index, `i < k`) is
absent, join ends in the `missingChunks` outcome with the working
directory untouched (no output file opened or written), and the
reported list contains exactly the joined path of every absent expected
chunk file. -/
theorem c3_missing_chunks (digest : Bytes → PyStr) (folderName : PyStr) (dir cwd : Dir)
    (mn text : PyStr) (jm : JMeta) (i0 : Nat)
    (hm : findMetaName dir = some mn) (ht : readTextFile dir mn = some text)
    (hd : decodeForJoin text = some jm) (hi : i0 < jm.num_chunks.toNat)
    (habs : hasFile dir (partName jm.original_name i0) = false) :
    joinFiles digest folderName dir cwd =
      (.missingChunks (missingList folderName dir jm), cwd) ∧
    (∀ p, p ∈ missingList folderName dir jm ↔
      ∃ i, i < jm.num_chunks.toNat ∧
        p = pathJoin folderName (partName jm.original_name i) ∧
        hasFile dir (partName jm.original_name i) = false) := by
  have hmem : pathJoin folderName (partName jm.original_name i0) ∈
      missingList folderName dir jm :=
    (mem_missingList _ _ _ _).mpr ⟨i0, hi, rfl, habs⟩
  have hne : missingList folderName dir jm ≠ [] := by
    intro h0
    rw [h0] at hmem
    exact List.not_mem_nil _ hmem
  rw [joinFiles_eq_of digest folderName dir cwd mn text jm hm ht hd]
  rw [if_neg (fun hemp => hne (List.isEmpty_iff.mp hemp))]
  exact ⟨rfl, fun p => mem_missingList folderName dir jm p⟩

theorem c3_missing_chunks_witness :
    (decodeForJoin c3text = some c3jm ∧ 0 < c3jm.num_chunks.toNat ∧
      hasFile c3dir (partName c3jm.original_name 0) = false) ∧
    joinFiles exDigest (str "f") c3dir [] =
      (.missingChunks (missingList (str "f") c3dir c3jm), []) :=
  ⟨⟨by decide, by decide, by decide⟩,
    (c3_missing_chunks exDigest (str "f") c3dir [] (str "a.meta") c3text c3jm 0
      (by decide) (by decide) (by decide) (by decide) (by decide)).1⟩

/-- A second concrete digest function, for exercising the claim that
the size-mismatch path never evaluates the hash. -/
def exDigest2 : Bytes → PyStr := fun _ => str "x"

/-- Metadata text for the size-mismatch example: one chunk of one byte
on disk, but `original_size=5` recorded. -/
def c6text : PyStr :=
  str "original_name=a\nnum_chunks=1\noriginal_size=5\nchunk_size=1\nsha256=h\n"

/-- The chunk-set directory for the size-mismatch example. -/
def c6dir : Dir := [(str "a.part000", FData.bin [9]), (str "a.meta", FData.txt c6text)]

/-- The record `c6text` decodes to. -/
def c6jm : JMeta := ⟨str "a", 1, 5, str "h"⟩

/-- C6.  Size-mismatch soft failure: when the reconstructed output's
byte length differs from the recorded `original_size`, join reports
`sizeMismatch`, retains the output file in the working directory, and
never evaluates the digest function — the entire result is the same for
any two digest functions. -/
theorem c6_size_mismatch (digest digest2 : Bytes → PyStr) (folderName : PyStr)
    (dir cwd : Dir) (mn text : PyStr) (jm : JMeta)
    (hm : findMetaName dir = some mn) (ht : readTextFile dir mn = some text)
    (hd : decodeForJoin text = some jm)
    (hmiss : missingList folderName dir jm = [])
    (hsz : ((expectedOutput dir jm).length : Int) ≠ jm.original_size) :
    joinFiles digest folderName dir cwd =
      (.rebuilt (chooseOutName cwd jm.original_name) .sizeMismatch,
       writeFile cwd (chooseOutName cwd jm.original_name)
         (.bin (expectedOutput dir jm))) ∧
    joinFiles digest folderName dir cwd = joinFiles digest2 folderName dir cwd := by
  have key : ∀ dg : Bytes → PyStr, joinFiles dg folderName dir cwd =
      (.rebuilt (chooseOutName cwd jm.original_name) .sizeMismatch,
       writeFile cwd (chooseOutName cwd jm.original_name)
         (.bin (expectedOutput dir jm))) := by
    intro dg
    rw [joinFiles_eq_of dg folderName dir cwd mn text jm hm ht hd, hmiss,
      if_pos (show ([] : List PyStr).isEmpty = true from rfl)]
    have hverd : verdictOf dg jm (expectedOutput dir jm) = .sizeMismatch := by
      unfold verdictOf
      rw [if_neg hsz]
    rw [hverd]
  exact ⟨key digest, (key digest).trans (key digest2).symm⟩

theorem c6_size_mismatch_witness :
    (((expectedOutput c6dir c6jm).length : Int) ≠ c6jm.original_size) ∧
    (joinFiles exDigest (str "f") c6dir [] =
      (.rebuilt (chooseOutName [] c6jm.original_name) .sizeMismatch,
       writeFile [] (chooseOutName [] c6jm.original_name)
         (.bin (expectedOutput c6dir c6jm))) ∧
     joinFiles exDigest (str "f") c6dir [] = joinFiles exDigest2 (str "f") c6dir []) :=
  ⟨by decide,
    c6_size_mismatch exDigest exDigest2 (str "f") c6dir [] (str "a.meta") c6text c6jm
      (by decide) (by decide) (by decide) (by decide) (by decide)⟩

/-- C7.  Collision avoidance: when a file named `original_name` already
exists in the working directory, the output goes to
`rebuilt_<original_name>` and the pre-existing file's content is still
found unchanged under its name afterwards. -/
theorem c7_collision (digest : Bytes → PyStr) (folderName : PyStr) (dir cwd : Dir)
    (mn text : PyStr) (jm : JMeta) (pre : FData)
    (hm : findMetaName dir = some mn) (ht : readTextFile dir mn = some text)
    (hd : decodeForJoin text = some jm)
    (hmiss : missingList folderName dir jm = [])
    (hex : lookupFile cwd jm.original_name = some pre) :
    joinFiles digest folderName dir cwd =
      (.rebuilt (str "rebuilt_" ++ jm.original_name)
         (verdictOf digest jm (expectedOutput dir jm)),
       writeFile cwd (str "rebuilt_" ++ jm.original_name)
         (.bin (expectedOutput dir jm))) ∧
    lookupFile (joinFiles digest folderName dir cwd).2 jm.original_name = some pre := by
  have hout : chooseOutName cwd jm.original_name = str "rebuilt_" ++ jm.original_name := by
    unfold chooseOutName hasFile
    rw [hex]
    rfl
  have h1 : joinFiles digest folderName dir cwd =
      (.rebuilt (str "rebuilt_" ++ jm.original_name)
         (verdictOf digest jm (expectedOutput dir jm)),
       writeFile cwd (str "rebuilt_" ++ jm.original_name)
         (.bin (expectedOutput dir jm))) := by
    rw [joinFiles_eq_of digest folderName dir cwd mn text jm hm ht hd, hmiss,
      if_pos (show ([] : List PyStr).isEmpty = true from rfl), hout]
  refine ⟨h1, ?_⟩
  rw [h1]
  show lookupFile (writeFile cwd (str "rebuilt_" ++ jm.original_name)
    (.bin (expectedOutput dir jm))) jm.original_name = some pre
  rw [lookupFile_writeFile_ne cwd (str "rebuilt_" ++ jm.original_name)
    jm.original_name (.bin (expectedOutput dir jm))
    (fun he => rebuilt_ne jm.original_name he.symm)]
  exact hex

/-- A sound chunk-set directory for the collision example: the one
expected chunk is present. -/
def c7dir : Dir := [(str "a.part000", FData.bin [9]), (str "a.meta", FData.txt c3text)]

theorem c7_collision_witness :
    (missingList (str "f") c7dir c3jm = [] ∧
      lookupFile [(str "a", FData.bin [5])] c3jm.original_name = some (FData.bin [5])) ∧
    (joinFiles exDigest (str "f") c7dir [(str "a", FData.bin [5])] =
      (.rebuilt (str "rebuilt_" ++ c3jm.original_name)
         (verdictOf exDigest c3jm (expectedOutput c7dir c3jm)),
       writeFile [(str "a", FData.bin [5])] (str "rebuilt_" ++ c3jm.original_name)
         (.bin (expectedOutput c7dir c3jm))) ∧
     lookupFile (joinFiles exDigest (str "f") c7dir [(str "a", FData.bin [5])]).2
       c3jm.original_name = some (FData.bin [5])) :=
  ⟨⟨by decide, by decide⟩,
    c7_collision exDigest (str "f") c7dir [(str "a", FData.bin [5])] (str "a.meta")
      c3text c3jm (FData.bin [5]) (by decide) (by decide) (by decide) (by decide)
      (by decide)⟩

theorem lookupFile_append_skip (a rest : Dir) (nm : PyStr)
    (ha : ∀ p ∈ a, p.1 ≠ nm) :
    lookupFile (a ++ rest) nm = lookupFile rest nm := by
  induction a with
  | nil => rfl
  | cons e es ih =>
    obtain ⟨n, c⟩ := e
    rw [List.cons_append]
    simp only [lookupFile]
    rw [if_neg (ha (n, c) (List.mem_cons_self _ _))]
    exact ih (fun p hp => ha p (List.mem_cons_of_mem _ hp))

theorem lookupFile_middle_irrel (a b : Dir) (mn : PyStr) (x y : FData) (p : PyStr)
    (hp : p ≠ mn) :
    lookupFile (a ++ (mn, x) :: b) p = lookupFile (a ++ (mn, y) :: b) p := by
  induction a with
  | nil =>
    rw [List.nil_append, List.nil_append]
    simp only [lookupFile]
    rw [if_neg (fun he => hp he.symm), if_neg (fun he => hp he.symm)]
  | cons e es ih =>
    obtain ⟨n, c⟩ := e
    rw [List.cons_append, List.cons_append]
    simp only [lookupFile]
    by_cases hn : n = p
    · rw [if_pos hn, if_pos hn]
    · rw [if_neg hn, if_neg hn]
      exact ih

/-- Two chunk directories that agree on the metadata file's location
and on every non-metadata file, and whose metadata texts decode to the
same record, drive `join_files` to the same result. -/
theorem joinFiles_congr_dir (digest : Bytes → PyStr) (folderName : PyStr)
    (d1 d2 cwd : Dir) (mn t1 t2 : PyStr)
    (hm1 : findMetaName d1 = some mn) (hm2 : findMetaName d2 = some mn)
    (ht1 : readTextFile d1 mn = some t1) (ht2 : readTextFile d2 mn = some t2)
    (hdec : decodeForJoin t1 = decodeForJoin t2)
    (hlook : ∀ p, endsWithMeta p = false → lookupFile d1 p = lookupFile d2 p) :
    joinFiles digest folderName d1 cwd = joinFiles digest folderName d2 cwd := by
  cases hjm : decodeForJoin t1 with
  | none =>
    rw [joinFiles_badMeta digest folderName d1 cwd mn t1 hm1 ht1 hjm,
      joinFiles_badMeta digest folderName d2 cwd mn t2 hm2 ht2 (hdec.symm.trans hjm)]
  | some jm =>
    have hjm2 : decodeForJoin t2 = some jm := hdec.symm.trans hjm
    have hmiss : missingList folderName d1 jm = missingList folderName d2 jm := by
      unfold missingList
      congr 1
      apply List.filter_congr
      intro i _
      unfold hasFile
      rw [hlook _ (endsWithMeta_partName _ _)]
    have hout : expectedOutput d1 jm = expectedOutput d2 jm := by
      unfold expectedOutput
      congr 1
      apply List.map_congr_left
      intro i _
      unfold readBinD
      rw [hlook _ (endsWithMeta_partName _ _)]
    rw [joinFiles_eq_of digest folderName d1 cwd mn t1 jm hm1 ht1 hjm,
      joinFiles_eq_of digest folderName d2 cwd mn t2 jm hm2 ht2 hjm2, hmiss, hout]

/-- C9 (implicit).  The reconstructed output and verification result of
`join_files` do not depend on the `chunk_size` value in the metadata:
two chunk-set directories identical except for that value (any
newline-free strings) drive join to identical results, because
`join_files` never reads the `chunk_size` key. -/
theorem c9_chunk_size_independent (digest : Bytes → PyStr) (folderName : PyStr)
    (a b cwd : Dir) (mn nameF ncF osF hF v1 v2 : PyStr)
    (hmn : endsWithMeta mn = true)
    (ha : ∀ p ∈ a, endsWithMeta p.1 = false)
    (h1 : noNL nameF) (h2 : noNL ncF) (h3 : noNL osF) (h4 : noNL hF)
    (hv1 : noNL v1) (hv2 : noNL v2) :
    joinFiles digest folderName
      (a ++ (mn, FData.txt (metaText5 nameF ncF osF v1 hF)) :: b) cwd =
    joinFiles digest folderName
      (a ++ (mn, FData.txt (metaText5 nameF ncF osF v2 hF)) :: b) cwd := by
  have hane : ∀ p ∈ a, p.1 ≠ mn := by
    intro p hp he
    have hthis := ha p hp
    rw [he, hmn] at hthis
    exact absurd hthis (by decide)
  have hm : ∀ (x : FData), findMetaName (a ++ (mn, x) :: b) = some mn := by
    intro x
    rw [findMetaName_append_none a _ ha]
    exact findMetaName_cons_meta _ _ _ hmn
  have ht : ∀ (t : PyStr), readTextFile (a ++ (mn, FData.txt t) :: b) mn = some t := by
    intro t
    unfold readTextFile
    rw [lookupFile_append_skip a _ mn hane]
    simp only [lookupFile, if_pos rfl]
    rfl
  have hdec : decodeForJoin (metaText5 nameF ncF osF v1 hF) =
      decodeForJoin (metaText5 nameF ncF osF v2 hF) := by
    rw [decodeForJoin_metaText5 _ _ _ _ _ h1 h2 h3 hv1 h4,
      decodeForJoin_metaText5 _ _ _ _ _ h1 h2 h3 hv2 h4]
  apply joinFiles_congr_dir digest folderName _ _ cwd mn _ _ (hm _) (hm _) (ht _) (ht _) hdec
  intro p hp
  refine lookupFile_middle_irrel a b mn _ _ p (fun he => ?_)
  rw [he] at hp
  rw [hp] at hmn
  exact absurd hmn (by decide)

theorem c9_chunk_size_independent_witness :
    (endsWithMeta (str "a.meta") = true ∧ noNL (str "1") ∧ noNL (str "zz")) ∧
    joinFiles exDigest (str "f")
      ([] ++ (str "a.meta",
        FData.txt (metaText5 (str "a") (str "1") (str "1") (str "1") (str "h"))) ::
        [(str "a.part000", FData.bin [9])]) [] =
    joinFiles exDigest (str "f")
      ([] ++ (str "a.meta",
        FData.txt (metaText5 (str "a") (str "1") (str "1") (str "zz") (str "h"))) ::
        [(str "a.part000", FData.bin [9])]) [] :=
  ⟨⟨by decide, by decide, by decide⟩,
    c9_chunk_size_independent exDigest (str "f") [] [(str "a.part000", FData.bin [9])]
      [] (str "a.meta") (str "a") (str "1") (str "1") (str "h") (str "1") (str "zz")
      (by decide) (by simp) (by decide) (by decide) (by decide) (by decide) (by decide)
      (by decide)⟩

end Chunker
